import Mathlib

/-!
Shallow embedding of `legume/minimize.py` (class `Minimize`): the value-unwrap
utility `_get_value`, the bounds parser `_parse_bounds`, the hand-rolled Adam
step `_step_adam` with its driver loop `adam`, and the L-BFGS-B adapter pieces
(the inner objective wrapper `of` and the per-iteration callback `cb`).

Modelling conventions:
* Python floats are modelled as rationals (`ℚ`); numpy arrays as lists of
  rationals, with elementwise arithmetic as `List.zipWith` / `List.map`.
  Shapes are assumed compatible exactly where numpy would demand it; the
  theorems carry the corresponding length hypotheses.
* `np.sqrt` is a function of the external numpy library, not of this
  repository; it enters the embedding as an explicit parameter `sq : ℚ → ℚ`.
* The external SciPy solver called by `lbfgs` is likewise opaque.  A solver
  run is modelled by the sequence of calls it makes back into this module
  (wrapped-objective evaluations and callback invocations) together with the
  final iterate `res.x` it reports.
* Python object identity matters in one place: `self.params = pstart` aliases
  the caller's array, the Adam update step rebinds `self.params` to a freshly
  built array, and the bound clamp writes through the current array in place
  (`self.params[self.params < lbs] = ...`).  The Adam state therefore carries
  the contents of the caller's `pstart` buffer together with a flag recording
  whether `self.params` still aliases it.
* Wall-clock timing and `print` display are pure side effects with no
  data flow into the results and are not modelled; the extra `args` and the
  `pass_self` flag only extend the argument list of the user objective, which
  the embedding absorbs into the objective closure.
-/

/-- A parameter / gradient vector: numpy 1-d array of floats. -/
abbrev RVec := List ℚ

/-- A Python scalar as seen by `Minimize`: a plain float, a numpy array, or an
autograd `ArrayBox` carrying its underlying `_value` plus trace metadata
(modelled as a tag `ℕ`). -/
inductive PyScalar where
  | num : ℚ → PyScalar
  | arr : List ℚ → PyScalar
  | box : ℚ → ℕ → PyScalar
deriving DecidableEq

/-- `str(type(x))` for the modelled scalar values. -/
def typeName : PyScalar → String
  | .num _ => "<class \x27float\x27>"
  | .arr _ => "<class \x27numpy.ndarray\x27>"
  | .box _ _ => "<class \x27autograd.numpy.numpy_boxes.ArrayBox\x27>"

/-- The `x._value` attribute of an autograd `ArrayBox`.  Only boxes carry it;
the fallback branch is never reached by `_get_value` (guarded by the type
check). -/
def valueAttr : PyScalar → PyScalar
  | .box v _ => .num v
  | x => x

/-- `Minimize._get_value`: strip the autograd `ArrayBox` tag, detected by
comparing the textual type name, and return anything else unchanged. -/
def _get_value (x : PyScalar) : PyScalar :=
  if typeName x = "<class \x27autograd.numpy.numpy_boxes.ArrayBox\x27>" then
    valueAttr x
  else x

/-- A Python value appearing in a `bounds` argument: a number or a tuple/list
of such values (`tuple(bounds)` turns a list into a tuple; both are modelled
by `tup`). -/
inductive PyVal where
  | num : ℚ → PyVal
  | tup : List PyVal → PyVal

/-- The message of the `ValueError` raised by `Minimize._parse_bounds`. -/
def boundsErrMsg : String :=
  "\x27bounds\x27 should be a list of two elements [lb, ub], or a list of the same length as the number of parameters with tuples (lb, ub)"

/-- `Minimize._parse_bounds`: `None` passes through; a 2-element list is
broadcast as `[tuple(bounds) for i in range(self.params.size)]`; a list whose
length equals `self.params.size` is returned as-is; anything else raises
`ValueError`. -/
def _parse_bounds (bounds : Option (List PyVal)) (size : ℕ) :
    Except String (Option (List PyVal)) :=
  match bounds with
  | none => .ok none
  | some bs =>
    if bs.length = 2 then .ok (some (List.replicate size (PyVal.tup bs)))
    else if bs.length = size then .ok (some bs)
    else .error boundsErrMsg

/-- Numeric content of a bound entry.  A non-numeric entry in this position
would make the numpy comparison in the clamp raise in Python; no claim
exercises that case, and it is mapped to `0`. -/
def PyVal.toQ : PyVal → ℚ
  | .num q => q
  | .tup _ => 0

/-- `(b[0], b[1])` for one entry `b` of the parsed bounds list (used to build
the `lbs` / `ubs` arrays in the Adam clamp).  Entries that are not tuples of
length at least two would raise in Python; no claim exercises them. -/
def pairOf : PyVal → ℚ × ℚ
  | .tup (x :: y :: _) => (x.toQ, y.toQ)
  | _ => (0, 0)

/-- `lbs` and `ubs` zipped: `[(b[0], b[1]) for b in self.bounds]`. -/
def pairsOf (bs : List PyVal) : List (ℚ × ℚ) := bs.map pairOf

/-- Python truthiness of the raw `bounds` argument, as tested by
`if bounds:` in the Adam loop. -/
def boundsTruthy : Option (List PyVal) → Bool
  | none => false
  | some bs => !bs.isEmpty

/-- The two masked in-place assignments of the Adam clamp:
`self.params[self.params < lbs] = lbs[self.params < lbs]` followed by
`self.params[self.params > ubs] = ubs[self.params > ubs]`. -/
def clampL (ps : List (ℚ × ℚ)) (xs : RVec) : RVec :=
  let low := List.zipWith (fun l x => if x < l then l else x) (ps.map Prod.fst) xs
  List.zipWith (fun u x => if x > u then u else x) (ps.map Prod.snd) low

/-- `xs` lies within the per-parameter closed intervals `ps`, position by
position, and has one entry per interval. -/
def inBounds (ps : List (ℚ × ℚ)) (xs : RVec) : Prop :=
  ps.length = xs.length ∧ ∀ pr ∈ ps.zip xs, pr.1.1 ≤ pr.2 ∧ pr.2 ≤ pr.1.2

/-- The constructor argument `jac`: either `True` (the objective returns the
value and the gradient jointly) or a separate gradient function. -/
inductive Jac where
  | joint : (RVec → PyScalar × RVec) → Jac
  | fn : (RVec → PyScalar) → (RVec → RVec) → Jac

/-- One evaluation of objective and gradient in the Adam loop: the
`if self.jac==True` branch unpacks the pair, the `else` branch calls the
objective and the separate gradient function. -/
def Jac.eval : Jac → RVec → PyScalar × RVec
  | .joint f, p => f p
  | .fn f g, p => (f p, g p)

/-- `Minimize._step_adam`.  `iteration` is the 0-indexed loop variable; the
bias corrections use `iteration + 1`.  In the source `epsilon` is a keyword
argument with default `1e-8`; the only call site (the Adam loop) relies on
that default, which callers of this embedding pass explicitly. -/
def _step_adam (sq : ℚ → ℚ) (gradient mopt_old vopt_old : RVec)
    (iteration : ℕ) (beta1 beta2 epsilon : ℚ) : RVec × RVec × RVec :=
  let mopt := List.zipWith (fun mo g => beta1 * mo + (1 - beta1) * g) mopt_old gradient
  let mopt_t := mopt.map fun m => m / (1 - beta1 ^ (iteration + 1))
  let vopt := List.zipWith (fun vo g => beta2 * vo + (1 - beta2) * (g * g)) vopt_old gradient
  let vopt_t := vopt.map fun v => v / (1 - beta2 ^ (iteration + 1))
  let grad_adam := List.zipWith (fun m v => m / (sq v + epsilon)) mopt_t vopt_t
  (grad_adam, mopt, vopt)

/-- The configuration of one `adam` call after bounds parsing: numpy sqrt,
objective/gradient access, iteration budget, hyperparameters, the truthiness
of the raw `bounds` argument, and the `(b[0], b[1])` pairs of the parsed
bounds. -/
structure AdamCfg where
  sq : ℚ → ℚ
  jac : Jac
  Nepochs : ℕ
  step_size : ℚ
  beta1 : ℚ
  beta2 : ℚ
  useBounds : Bool
  bps : List (ℚ × ℚ)

/-- The mutable state of the Adam loop: the contents of the caller's `pstart`
buffer, the contents of `self.params`, whether `self.params` still aliases
the caller's buffer, the two moment accumulators, and `self.of_list`. -/
structure AdamState where
  pstartMem : RVec
  params : RVec
  aliased : Bool
  mopt : RVec
  vopt : RVec
  of_list : List PyScalar
deriving DecidableEq

/-- State on entry of the loop: `self.params = pstart` aliases the caller's
array; `self.of_list = []`; the moments are created inside the loop. -/
def adamInit (pstart : RVec) : AdamState :=
  ⟨pstart, pstart, true, [], [], []⟩

/-- One iteration of the Adam loop at 0-indexed `i`: evaluate objective and
gradient, append `_get_value(of)` to the trace, zero-initialize the moments
when `i == 0`, run `_step_adam`, replace `self.params` by
`self.params - step_size * grad_adam` only when `i < Nepochs - 1` (a
replacement drops the aliasing of `pstart`), and finally, when the raw
`bounds` argument is truthy, clamp in place — writing through to the caller's
buffer when `self.params` still aliases it. -/
def adamStep (c : AdamCfg) (i : ℕ) (s : AdamState) : AdamState :=
  let og := c.jac.eval s.params
  let of_list := s.of_list ++ [_get_value og.1]
  let m0 := if i = 0 then List.replicate og.2.length 0 else s.mopt
  let v0 := if i = 0 then List.replicate og.2.length 0 else s.vopt
  let smv := _step_adam c.sq og.2 m0 v0 i c.beta1 c.beta2 (1 / 10 ^ 8)
  let params1 := if i < c.Nepochs - 1
    then List.zipWith (fun p u => p - c.step_size * u) s.params smv.1
    else s.params
  let aliased1 := if i < c.Nepochs - 1 then false else s.aliased
  let params2 := if c.useBounds then clampL c.bps params1 else params1
  ⟨if c.useBounds && aliased1 then params2 else s.pstartMem,
   params2, aliased1, smv.2.1, smv.2.2, of_list⟩

/-- The state after the first `k` iterations of the Adam loop. -/
def adamIterate (c : AdamCfg) (pstart : RVec) : ℕ → AdamState
  | 0 => adamInit pstart
  | k + 1 => adamStep c k (adamIterate c pstart k)

/-- Package the data of one `adam` call (raw `bounds` argument and parsed
bounds `pb`) into a loop configuration. -/
def mkCfg (sq : ℚ → ℚ) (jac : Jac) (Nepochs : ℕ) (step_size beta1 beta2 : ℚ)
    (bounds : Option (List PyVal)) (pb : Option (List PyVal)) : AdamCfg :=
  ⟨sq, jac, Nepochs, step_size, beta1, beta2,
   boundsTruthy bounds, pairsOf (pb.getD [])⟩

/-- `Minimize.adam` up to its final state: set `self.params = pstart`, parse
the bounds against `self.params.size` (propagating the `ValueError`), then
run `Nepochs` loop iterations. -/
def adamDrive (sq : ℚ → ℚ) (jac : Jac) (pstart : RVec) (Nepochs : ℕ)
    (bounds : Option (List PyVal)) (step_size beta1 beta2 : ℚ) :
    Except String AdamState :=
  match _parse_bounds bounds pstart.length with
  | .error e => .error e
  | .ok pb =>
      .ok (adamIterate (mkCfg sq jac Nepochs step_size beta1 beta2 bounds pb)
        pstart Nepochs)

/-- `Minimize.adam`: the returned pair `(self.params, self.of_list)`. -/
def adam (sq : ℚ → ℚ) (jac : Jac) (pstart : RVec) (Nepochs : ℕ)
    (bounds : Option (List PyVal)) (step_size beta1 beta2 : ℚ) :
    Except String (RVec × List PyScalar) :=
  (adamDrive sq jac pstart Nepochs bounds step_size beta1 beta2).map
    fun s => (s.params, s.of_list)

/-- Spec-side comparator for claim C2: one Adam iteration that always applies
the parameter replacement `params - step_size * grad_adam`, with no
final-iteration exception. -/
def adamStepSpec (c : AdamCfg) (i : ℕ) (s : AdamState) : AdamState :=
  let og := c.jac.eval s.params
  let of_list := s.of_list ++ [_get_value og.1]
  let m0 := if i = 0 then List.replicate og.2.length 0 else s.mopt
  let v0 := if i = 0 then List.replicate og.2.length 0 else s.vopt
  let smv := _step_adam c.sq og.2 m0 v0 i c.beta1 c.beta2 (1 / 10 ^ 8)
  let params1 := List.zipWith (fun p u => p - c.step_size * u) s.params smv.1
  let params2 := if c.useBounds then clampL c.bps params1 else params1
  ⟨s.pstartMem, params2, false, smv.2.1, smv.2.2, of_list⟩

/-- Spec-side comparator for claim C2: `k` unconditional update iterations. -/
def adamIterateSpec (c : AdamCfg) (pstart : RVec) : ℕ → AdamState
  | 0 => adamInit pstart
  | k + 1 => adamStepSpec c k (adamIterateSpec c pstart k)

/-- Result of one call of the user objective inside `lbfgs`: a bare scalar
(`jac` is a separate function) or a `(value, gradient)` pair (`jac == True`). -/
inductive ObjResult where
  | scalar : PyScalar → ObjResult
  | pair : PyScalar → RVec → ObjResult

/-- Message of the `TypeError` Python raises for `list(x)` on a
non-iterable scalar. -/
def typeErrorNotIterable : String := "TypeError: object is not iterable"

/-- The inner function `of` defined by `Minimize.lbfgs`: call the user
objective, convert the result with `list(...)` — which raises `TypeError` on
a bare scalar —, store `self.of_last = self._get_value(out[0])`, and hand
`tuple(out)` (the user result, unchanged) back to the solver.  The value
returned is the stored `of_last` paired with the value passed through to the
solver. -/
def of_wrapper (objective : RVec → ObjResult) (p : RVec) :
    Except String (PyScalar × ObjResult) :=
  match objective p with
  | .scalar _ => .error typeErrorNotIterable
  | .pair s g => .ok (_get_value s, .pair s g)

/-- The `lbfgs` adapter state: `self.iteration`, `self.of_list`,
`self.params`, and `self.of_last` (absent until the first wrapped-objective
call; reading it before that raises `AttributeError`). -/
structure LState where
  iteration : ℕ
  of_list : List PyScalar
  params : RVec
  of_last : Option PyScalar
deriving DecidableEq

/-- Adapter state after the counters are reset, before the solver runs. -/
def lbfgsInit (pstart : RVec) : LState := ⟨0, [], pstart, none⟩

/-- One call the external L-BFGS-B solver makes back into the adapter:
an evaluation of the wrapped objective at some point, or an invocation of the
per-iteration callback with the accepted iterate `xk`. -/
inductive LEvent where
  | eval : RVec → LEvent
  | cbk : RVec → LEvent

/-- Effect of one solver call on the adapter state.  `eval` runs the wrapped
objective, storing the unwrapped scalar in `of_last`; `cbk` is the callback
`cb`: increment `self.iteration`, append `self.of_last` to `self.of_list`,
and set `self.params = xk`. -/
def lbfgsStep (objective : RVec → ObjResult) (s : LState) :
    LEvent → Except String LState
  | .eval p =>
    match of_wrapper objective p with
    | .error e => .error e
    | .ok vr => .ok ⟨s.iteration, s.of_list, s.params, some vr.1⟩
  | .cbk xk =>
    match s.of_last with
    | none => .error "AttributeError: of_last"
    | some v => .ok ⟨s.iteration + 1, s.of_list ++ [v], xk, some v⟩

/-- Fold the adapter state through the sequence of calls the solver makes;
a raised exception aborts the run. -/
def lbfgsRun (objective : RVec → ObjResult) (s : LState) :
    List LEvent → Except String LState
  | [] => .ok s
  | e :: es =>
    match lbfgsStep objective s e with
    | .error msg => .error msg
    | .ok s1 => lbfgsRun objective s1 es

/-- `Minimize.lbfgs`: set `self.params = pstart`, parse bounds against
`self.params.size` (propagating the `ValueError`), run the external solver —
modelled by the calls `events` it makes and the final iterate `resx` it
reports — and return `(res.x, self.of_list)`. -/
def lbfgsDrive (objective : RVec → ObjResult) (pstart : RVec)
    (bounds : Option (List PyVal)) (events : List LEvent) (resx : RVec) :
    Except String (RVec × List PyScalar) :=
  match _parse_bounds bounds pstart.length with
  | .error e => .error e
  | .ok _pb =>
    match lbfgsRun objective (lbfgsInit pstart) events with
    | .error e => .error e
    | .ok s => .ok (resx, s.of_list)

/-- An objective in `jac == True` form: it always returns a
`(value, gradient)` pair. -/
def jointObjective (f : RVec → PyScalar × RVec) : RVec → ObjResult :=
  fun p => .pair (f p).1 (f p).2

/-- Number of callback invocations in a solver call sequence. -/
def countCb (es : List LEvent) : ℕ :=
  es.countP fun e => match e with | .cbk _ => true | .eval _ => false

/-- Every callback invocation in `es` is preceded by at least one
wrapped-objective evaluation (the flag records whether one happened
already). -/
def cbsPreceded : Bool → List LEvent → Bool
  | _, [] => true
  | _, .eval _ :: es => cbsPreceded true es
  | b, .cbk _ :: es => b && cbsPreceded b es

/-- Spec-side comparator for claim C6: the trace the callback should build —
one entry per callback invocation, each equal to the scalar stored by the
most recent wrapped-objective evaluation. -/
def cbTrace (objective : RVec → ObjResult) :
    List LEvent → Option PyScalar → List PyScalar
  | [], _ => []
  | .eval p :: es, _ =>
    cbTrace objective es
      (match of_wrapper objective p with
       | .ok vr => some vr.1
       | .error _ => none)
  | .cbk _ :: es, none => cbTrace objective es none
  | .cbk _ :: es, some v => v :: cbTrace objective es (some v)

/-- Spec-side comparator for claim C6: the final current-parameter vector —
the iterate reported by the last callback invocation, if any. -/
def finalParams : List LEvent → RVec → RVec
  | [], p => p
  | .eval _ :: es, p => finalParams es p
  | .cbk x :: es, _ => finalParams es x

/-- Spec-side comparator for claim C6: the stored objective value after the
whole call sequence. -/
def finalStored (objective : RVec → ObjResult) :
    List LEvent → Option PyScalar → Option PyScalar
  | [], v => v
  | .eval p :: es, _ =>
    finalStored objective es
      (match of_wrapper objective p with
       | .ok vr => some vr.1
       | .error _ => none)
  | .cbk _ :: es, v => finalStored objective es v

/-- A concrete objective/gradient pair used by the witnesses: objective
constantly `0`, gradient constantly `1` in every coordinate. -/
def jacConst : Jac := .fn (fun _ => .num 0) (fun p => p.map fun _ => 1)

/-- A concrete `jac == True` objective used by the witnesses. -/
def jointConst : RVec → PyScalar × RVec := fun p => (.num 0, p.map fun _ => 1)

instance (ps : List (ℚ × ℚ)) (xs : RVec) : Decidable (inBounds ps xs) := by
  unfold inBounds
  infer_instance

theorem parse_bounds_some_length {bs pb : List PyVal} {n : ℕ}
    (h : _parse_bounds (some bs) n = .ok (some pb)) : pb.length = n := by
  simp only [_parse_bounds] at h
  split_ifs at h with h2 hn
  · obtain rfl : List.replicate n (PyVal.tup bs) = pb := by simpa using h
    simp
  · obtain rfl : bs = pb := by simpa using h
    exact hn

/-- C1: for every gradient, previous moments, 1-indexed iteration `t ≥ 1` and
decay rates, `_step_adam` (at the call-site epsilon `1e-8`, the source
default) returns `m_hat / (sqrt(v_hat) + 1e-8)` together with the new moments
`m = beta1*m_prev + (1-beta1)*g` and `v = beta2*v_prev + (1-beta2)*g^2`
(elementwise square), where `m_hat = m / (1 - beta1^t)` and
`v_hat = v / (1 - beta2^t)` — the standard bias-corrected Adam estimator,
with no variant applied. -/
theorem step_adam_bias_corrected (sq : ℚ → ℚ) (g mprev vprev : RVec)
    (t : ℕ) (b1 b2 : ℚ) (ht : 1 ≤ t) :
    _step_adam sq g mprev vprev (t - 1) b1 b2 (1 / 10 ^ 8) =
      (List.zipWith (fun mh vh => mh / (sq vh + 1 / 10 ^ 8))
        ((List.zipWith (fun mo gi => b1 * mo + (1 - b1) * gi) mprev g).map
          fun m => m / (1 - b1 ^ t))
        ((List.zipWith (fun vo gi => b2 * vo + (1 - b2) * (gi * gi)) vprev g).map
          fun v => v / (1 - b2 ^ t)),
       List.zipWith (fun mo gi => b1 * mo + (1 - b1) * gi) mprev g,
       List.zipWith (fun vo gi => b2 * vo + (1 - b2) * (gi * gi)) vprev g) := by
  simp only [_step_adam, Nat.sub_add_cancel ht]

theorem step_adam_bias_corrected_witness :
    (1 ≤ 1) ∧
    _step_adam (fun x => x) [1] [0] [0] (1 - 1) (9 / 10) (999 / 1000) (1 / 10 ^ 8) =
      (List.zipWith (fun mh vh => mh / ((fun x : ℚ => x) vh + 1 / 10 ^ 8))
        ((List.zipWith (fun mo gi => (9 / 10 : ℚ) * mo + (1 - 9 / 10) * gi) [0] [1]).map
          fun m => m / (1 - (9 / 10 : ℚ) ^ 1))
        ((List.zipWith (fun vo gi => (999 / 1000 : ℚ) * vo + (1 - 999 / 1000) * (gi * gi)) [0] [1]).map
          fun v => v / (1 - (999 / 1000 : ℚ) ^ 1)),
       List.zipWith (fun mo gi => (9 / 10 : ℚ) * mo + (1 - 9 / 10) * gi) [0] [1],
       List.zipWith (fun vo gi => (999 / 1000 : ℚ) * vo + (1 - 999 / 1000) * (gi * gi)) [0] [1]) :=
  ⟨le_refl 1,
   step_adam_bias_corrected (fun x => x) [1] [0] [0] 1 (9 / 10) (999 / 1000) (le_refl 1)⟩

/-- C8: `_get_value` returns a plain float unchanged, returns a numpy array
unchanged (it strips exactly the `ArrayBox` tag and touches nothing else),
and returns the underlying `_value` of an autograd-tagged scalar. -/
theorem get_value_unwrap :
    (∀ q : ℚ, _get_value (.num q) = .num q)
    ∧ (∀ xs : List ℚ, _get_value (.arr xs) = .arr xs)
    ∧ (∀ (v : ℚ) (b : ℕ), _get_value (.box v b) = .num v) :=
  ⟨fun _ => rfl, fun _ => rfl, fun _ _ => rfl⟩

/-- C10: in `_parse_bounds` the 2-element branch takes precedence over the
full-length branch, so with exactly 2 parameters any 2-element bounds list —
including a per-parameter list of two `(lb, ub)` pairs — is broadcast: the
whole 2-element list, as a tuple, is repeated once per parameter; the
per-parameter interpretation is never produced. -/
theorem parse_bounds_two_param_precedence :
    (∀ bs : List PyVal, bs.length = 2 →
      _parse_bounds (some bs) 2 = .ok (some [PyVal.tup bs, PyVal.tup bs]))
    ∧ ∀ l1 u1 l2 u2 : ℚ,
      _parse_bounds (some [PyVal.tup [PyVal.num l1, PyVal.num u1],
          PyVal.tup [PyVal.num l2, PyVal.num u2]]) 2 ≠
        .ok (some [PyVal.tup [PyVal.num l1, PyVal.num u1],
          PyVal.tup [PyVal.num l2, PyVal.num u2]]) := by
  constructor
  · intro bs h
    simp [_parse_bounds, h, List.replicate]
  · intro l1 u1 l2 u2 h
    simp [_parse_bounds, List.replicate] at h

theorem parse_bounds_two_param_precedence_witness :
    ([PyVal.num 0, PyVal.num 1] : List PyVal).length = 2 ∧
    _parse_bounds (some [PyVal.num 0, PyVal.num 1]) 2 =
      .ok (some [PyVal.tup [PyVal.num 0, PyVal.num 1],
                 PyVal.tup [PyVal.num 0, PyVal.num 1]]) :=
  ⟨rfl, parse_bounds_two_param_precedence.1 [PyVal.num 0, PyVal.num 1] rfl⟩

/-- C5: behaviour of the `lbfgs` objective wrapper `of` in the two `jac`
modes.  In `jac == True` mode it stores the unwrapped scalar and passes the
user result through unchanged.  In separate-`jac` mode, however, the code
applies `list(...)` to the bare scalar the objective returns, which raises
`TypeError` at the first evaluation instead of storing and returning the
scalar — the claim describes this mode incorrectly for the code as written
(a slip: the driver passes `jac=self.jac` to the solver precisely to support
that mode). -/
theorem of_wrapper_jac_modes :
    of_wrapper (fun _ => ObjResult.scalar (PyScalar.num (7 / 2))) [0] =
      .error typeErrorNotIterable
    ∧ ∀ (f : RVec → PyScalar × RVec) (p : RVec),
        of_wrapper (jointObjective f) p =
          .ok (_get_value (f p).1, ObjResult.pair (f p).1 (f p).2) :=
  ⟨rfl, fun _ _ => rfl⟩

/-- C3: the bounds contract.  `None` yields no bounds; a 2-element `[lb, ub]`
yields the pair broadcast once per parameter; a list whose length equals the
parameter count (when that length is not 2 — the 2-element branch is checked
first, see C10) is used as the per-parameter list; any other length yields
the descriptive `ValueError`, and in that case both the Adam and the L-BFGS-B
driver fail with that error before any objective evaluation or optimization
step — for every objective, gradient and solver behaviour whatsoever. -/
theorem parse_bounds_contract (n : ℕ) :
    (_parse_bounds none n = .ok none)
    ∧ (∀ l u : ℚ, _parse_bounds (some [PyVal.num l, PyVal.num u]) n =
        .ok (some (List.replicate n (PyVal.tup [PyVal.num l, PyVal.num u]))))
    ∧ (∀ bs : List PyVal, bs.length = n → bs.length ≠ 2 →
        _parse_bounds (some bs) n = .ok (some bs))
    ∧ (∀ bs : List PyVal, bs.length ≠ 2 → bs.length ≠ n →
        _parse_bounds (some bs) n = .error boundsErrMsg)
    ∧ (∀ bs : List PyVal, bs.length ≠ 2 → bs.length ≠ n →
        ∀ (sq : ℚ → ℚ) (jac : Jac) (pstart : RVec) (N : ℕ) (st b1 b2 : ℚ),
          pstart.length = n →
          adam sq jac pstart N (some bs) st b1 b2 = .error boundsErrMsg)
    ∧ (∀ bs : List PyVal, bs.length ≠ 2 → bs.length ≠ n →
        ∀ (objective : RVec → ObjResult) (pstart : RVec)
          (events : List LEvent) (resx : RVec),
          pstart.length = n →
          lbfgsDrive objective pstart (some bs) events resx =
            .error boundsErrMsg) := by
  have herr : ∀ bs : List PyVal, bs.length ≠ 2 → bs.length ≠ n →
      _parse_bounds (some bs) n = .error boundsErrMsg := by
    intro bs h2 hn
    simp [_parse_bounds, h2, hn]
  refine ⟨rfl, ?_, ?_, herr, ?_, ?_⟩
  · intro l u
    simp [_parse_bounds]
  · intro bs hn h2
    have h2n : n ≠ 2 := fun hh => h2 (hn.trans hh)
    simp [_parse_bounds, hn, h2n]
  · intro bs h2 hn sq jac pstart N st b1 b2 hp
    simp [adam, adamDrive, Except.map, hp, herr bs h2 hn]
  · intro bs h2 hn objective pstart events resx hp
    simp [lbfgsDrive, hp, herr bs h2 hn]

theorem parse_bounds_contract_witness :
    (([PyVal.num 0] : List PyVal).length ≠ 2)
    ∧ (([PyVal.num 0] : List PyVal).length ≠ 3)
    ∧ (([(0 : ℚ), 0, 0] : RVec).length = 3)
    ∧ _parse_bounds (some [PyVal.num 0]) 3 = .error boundsErrMsg
    ∧ adam (fun x => x) jacConst [0, 0, 0] 5 (some [PyVal.num 0]) 1 (9 / 10)
        (999 / 1000) = .error boundsErrMsg
    ∧ lbfgsDrive (jointObjective jointConst) [0, 0, 0] (some [PyVal.num 0])
        [] [] = .error boundsErrMsg := by
  refine ⟨by decide, by decide, by decide, ?_, ?_, ?_⟩
  · exact (parse_bounds_contract 3).2.2.2.1 [PyVal.num 0] (by decide) (by decide)
  · exact (parse_bounds_contract 3).2.2.2.2.1 [PyVal.num 0] (by decide)
      (by decide) (fun x => x) jacConst [0, 0, 0] 5 1 (9 / 10) (999 / 1000)
      (by decide)
  · exact (parse_bounds_contract 3).2.2.2.2.2 [PyVal.num 0] (by decide)
      (by decide) (jointObjective jointConst) [0, 0, 0] [] [] (by decide)

theorem adamStep_eq_spec (c : AdamCfg) (i : ℕ) (s : AdamState)
    (h : i < c.Nepochs - 1) : adamStep c i s = adamStepSpec c i s := by
  simp [adamStep, adamStepSpec, h]

theorem adamIterate_eq_spec (c : AdamCfg) (pstart : RVec) (k : ℕ)
    (h : k ≤ c.Nepochs - 1) :
    adamIterate c pstart k = adamIterateSpec c pstart k := by
  induction k with
  | zero => rfl
  | succ k ih =>
    have hk : k < c.Nepochs - 1 := Nat.lt_of_succ_le h
    show adamStep c k (adamIterate c pstart k) =
      adamStepSpec c k (adamIterateSpec c pstart k)
    rw [ih (le_of_lt hk), adamStep_eq_spec c k _ hk]

theorem adamIterateSpec_of_list_length (c : AdamCfg) (pstart : RVec) (k : ℕ) :
    (adamIterateSpec c pstart k).of_list.length = k := by
  induction k with
  | zero => rfl
  | succ k ih => simp [adamIterateSpec, adamStepSpec, ih]

theorem adamStep_last (c : AdamCfg) (i : ℕ) (s : AdamState)
    (h : ¬ i < c.Nepochs - 1) :
    (adamStep c i s).params =
      (if c.useBounds then clampL c.bps s.params else s.params)
    ∧ (adamStep c i s).of_list =
      s.of_list ++ [_get_value (c.jac.eval s.params).1] := by
  constructor <;> simp [adamStep, h]

/-- C7: with `Nepochs = 0` and any bounds argument the parser accepts, `adam`
runs no iterations and returns the starting parameters unchanged with an
empty trace; the result does not depend on the objective or gradient, which
are therefore never evaluated. -/
theorem adam_zero_epochs (sq : ℚ → ℚ) (jac : Jac) (pstart : RVec)
    (bounds : Option (List PyVal)) (st b1 b2 : ℚ) (pb : Option (List PyVal))
    (hpb : _parse_bounds bounds pstart.length = .ok pb) :
    adam sq jac pstart 0 bounds st b1 b2 = .ok (pstart, []) := by
  simp [adam, adamDrive, hpb, Except.map, adamIterate, adamInit]

theorem adam_zero_epochs_witness :
    _parse_bounds none ([(1 : ℚ), 2].length) = .ok none ∧
    adam (fun x => x) jacConst [1, 2] 0 none 1 (9 / 10) (999 / 1000) =
      .ok ([1, 2], []) :=
  ⟨rfl, adam_zero_epochs (fun x => x) jacConst [1, 2] none 1 (9 / 10)
    (999 / 1000) none rfl⟩

/-- C2: for `Nepochs ≥ 1`, a run of the Adam driver equals `Nepochs - 1` full
iterations (objective recorded, update applied, clamp applied — the spec-side
`adamIterateSpec`) followed by a final probe iteration that appends the
objective value to the trace and clamps, but applies no parameter
replacement: the returned vector is the `Nepochs - 1`-step vector, modified
only by the final bound clamp, and the trace carries one entry per
iteration (`Nepochs - 1` entries before the final probe appends the last). -/
theorem adam_final_iteration_no_step (sq : ℚ → ℚ) (jac : Jac) (pstart : RVec)
    (N : ℕ) (bounds : Option (List PyVal)) (st b1 b2 : ℚ)
    (pb : Option (List PyVal)) (hN : 1 ≤ N)
    (hpb : _parse_bounds bounds pstart.length = .ok pb) :
    adam sq jac pstart N bounds st b1 b2 = .ok
      ((if (mkCfg sq jac N st b1 b2 bounds pb).useBounds
          then clampL (mkCfg sq jac N st b1 b2 bounds pb).bps
            ((adamIterateSpec (mkCfg sq jac N st b1 b2 bounds pb) pstart
              (N - 1)).params)
          else (adamIterateSpec (mkCfg sq jac N st b1 b2 bounds pb) pstart
            (N - 1)).params),
       (adamIterateSpec (mkCfg sq jac N st b1 b2 bounds pb) pstart
          (N - 1)).of_list
         ++ [_get_value (jac.eval ((adamIterateSpec
              (mkCfg sq jac N st b1 b2 bounds pb) pstart (N - 1)).params)).1])
    ∧ (adamIterateSpec (mkCfg sq jac N st b1 b2 bounds pb) pstart
        (N - 1)).of_list.length = N - 1 := by
  obtain ⟨M, rfl⟩ : ∃ M, N = M + 1 := ⟨N - 1, (Nat.succ_pred_eq_of_pos hN).symm⟩
  simp only [Nat.add_sub_cancel]
  constructor
  · simp only [adam, adamDrive, hpb, Except.map]
    rw [show adamIterate (mkCfg sq jac (M + 1) st b1 b2 bounds pb) pstart (M + 1)
        = adamStep (mkCfg sq jac (M + 1) st b1 b2 bounds pb) M
            (adamIterate (mkCfg sq jac (M + 1) st b1 b2 bounds pb) pstart M)
      from rfl]
    rw [adamIterate_eq_spec (mkCfg sq jac (M + 1) st b1 b2 bounds pb) pstart M
      (by show M ≤ M + 1 - 1; omega)]
    have hl := adamStep_last (mkCfg sq jac (M + 1) st b1 b2 bounds pb) M
      (adamIterateSpec (mkCfg sq jac (M + 1) st b1 b2 bounds pb) pstart M)
      (by show ¬ M < M + 1 - 1; omega)
    rw [hl.1, hl.2]
    rfl
  · exact adamIterateSpec_of_list_length _ pstart M

theorem adam_final_iteration_no_step_witness :
    (1 ≤ 1) ∧
    _parse_bounds none ([(1 : ℚ)].length) = .ok none ∧
    adam (fun x => x) jacConst [1] 1 none 1 (9 / 10) (999 / 1000) =
      .ok ([1], [PyScalar.num 0]) := by
  refine ⟨le_refl 1, rfl, ?_⟩
  have h := adam_final_iteration_no_step (fun x => x) jacConst [1] 1 none 1
    (9 / 10) (999 / 1000) none (le_refl 1) rfl
  exact h.1.trans (by rfl)

theorem clampL_nil (ps : List (ℚ × ℚ)) : clampL ps [] = [] := by
  simp [clampL]

theorem clampL_cons (pr : ℚ × ℚ) (ps : List (ℚ × ℚ)) (x : ℚ) (xs : RVec) :
    clampL (pr :: ps) (x :: xs) =
      (if (if x < pr.1 then pr.1 else x) > pr.2 then pr.2
       else if x < pr.1 then pr.1 else x) :: clampL ps xs := by
  simp [clampL]

theorem clampL_length (ps : List (ℚ × ℚ)) (xs : RVec) :
    (clampL ps xs).length = min ps.length xs.length := by
  simp [clampL, List.length_zipWith]

theorem clampL_zip_mem (ps : List (ℚ × ℚ)) (xs : RVec)
    (hlu : ∀ pr ∈ ps, pr.1 ≤ pr.2) :
    ∀ pr ∈ ps.zip (clampL ps xs), pr.1.1 ≤ pr.2 ∧ pr.2 ≤ pr.1.2 := by
  induction ps generalizing xs with
  | nil => simp
  | cons p ps ih =>
    cases xs with
    | nil => simp [clampL]
    | cons x xs =>
      rw [clampL_cons, List.zip_cons_cons]
      intro pr hpr
      rcases List.mem_cons.mp hpr with h | h
      · subst h
        have hpu := hlu p (List.mem_cons_self p ps)
        dsimp only
        split_ifs <;> constructor <;> linarith
      · exact ih xs (fun q hq => hlu q (List.mem_cons_of_mem _ hq)) pr h

theorem step_adam_res1_length (sq : ℚ → ℚ) (g m v : RVec) (i : ℕ) (b1 b2 e : ℚ) :
    ((_step_adam sq g m v i b1 b2 e).1).length =
      min (min m.length g.length) (min v.length g.length) := by
  simp [_step_adam, List.length_zipWith]

theorem step_adam_res21_length (sq : ℚ → ℚ) (g m v : RVec) (i : ℕ) (b1 b2 e : ℚ) :
    ((_step_adam sq g m v i b1 b2 e).2.1).length = min m.length g.length := by
  simp [_step_adam, List.length_zipWith]

theorem step_adam_res22_length (sq : ℚ → ℚ) (g m v : RVec) (i : ℕ) (b1 b2 e : ℚ) :
    ((_step_adam sq g m v i b1 b2 e).2.2).length = min v.length g.length := by
  simp [_step_adam, List.length_zipWith]

theorem adamStep_length (c : AdamCfg) (i : ℕ) (s : AdamState) (n : ℕ)
    (hg : ((c.jac.eval s.params).2).length = s.params.length)
    (hb : c.useBounds = true → c.bps.length = n)
    (hp : s.params.length = n)
    (hm : i = 0 ∨ (s.mopt.length = n ∧ s.vopt.length = n)) :
    (adamStep c i s).params.length = n
    ∧ (adamStep c i s).mopt.length = n
    ∧ (adamStep c i s).vopt.length = n := by
  have hgl : ((c.jac.eval s.params).2).length = n := hg.trans hp
  have hm0 : (if i = 0 then
      List.replicate ((c.jac.eval s.params).2).length (0 : ℚ)
      else s.mopt).length = n := by
    split_ifs with hi
    · simp [hgl]
    · rcases hm with hm | hm
      · exact absurd hm hi
      · exact hm.1
  have hv0 : (if i = 0 then
      List.replicate ((c.jac.eval s.params).2).length (0 : ℚ)
      else s.vopt).length = n := by
    split_ifs with hi
    · simp [hgl]
    · rcases hm with hm | hm
      · exact absurd hm hi
      · exact hm.2
  simp only [adamStep]
  set m0 := if i = 0 then
    List.replicate ((c.jac.eval s.params).2).length (0 : ℚ) else s.mopt
  set v0 := if i = 0 then
    List.replicate ((c.jac.eval s.params).2).length (0 : ℚ) else s.vopt
  refine ⟨?_, ?_, ?_⟩
  · split_ifs with h1 h2 h2
    · simp only [clampL_length, List.length_zipWith, step_adam_res1_length,
        hm0, hv0, hgl, hp, hb h1]
      omega
    · simp only [clampL_length, hp, hb h1]
      omega
    · simp only [List.length_zipWith, step_adam_res1_length, hm0, hv0, hgl, hp]
      omega
    · exact hp
  · simp only [step_adam_res21_length, hm0, hgl]
    omega
  · simp only [step_adam_res22_length, hv0, hgl]
    omega

theorem adamIterate_length (c : AdamCfg) (pstart : RVec)
    (hg : ∀ p : RVec, ((c.jac.eval p).2).length = p.length)
    (hb : c.useBounds = true → c.bps.length = pstart.length) :
    ∀ k, (adamIterate c pstart k).params.length = pstart.length
      ∧ (k = 0 ∨ ((adamIterate c pstart k).mopt.length = pstart.length
          ∧ (adamIterate c pstart k).vopt.length = pstart.length)) := by
  intro k
  induction k with
  | zero => exact ⟨rfl, Or.inl rfl⟩
  | succ k ih =>
    have h := adamStep_length c k (adamIterate c pstart k) pstart.length
      (hg _) hb ih.1 ih.2
    exact ⟨h.1, Or.inr ⟨h.2.1, h.2.2⟩⟩

theorem adamStep_params_clamped (c : AdamCfg) (i : ℕ) (s : AdamState)
    (hub : c.useBounds = true) :
    ∃ xs : RVec, (adamStep c i s).params = clampL c.bps xs := by
  simp only [adamStep, hub]
  exact ⟨_, rfl⟩

/-- C4: in an Adam run with a truthy bounds argument the parser accepts, and
whose parsed per-parameter intervals each satisfy `lb ≤ ub` (the gradient
having the parameter shape, as the gradient contract requires), the parameter
vector lies within its `[lb, ub]` intervals, inclusive, after every completed
iteration — each iteration ends by clamping any parameter below `lb` up to
`lb` and any above `ub` down to `ub` — and hence the returned final parameter
vector of a run with at least one iteration is within bounds as well. -/
theorem adam_bounds_clamped (sq : ℚ → ℚ) (jac : Jac) (pstart : RVec)
    (N : ℕ) (st b1 b2 : ℚ) (bs pb : List PyVal)
    (hbs : bs ≠ [])
    (hpb : _parse_bounds (some bs) pstart.length = .ok (some pb))
    (hlu : ∀ pr ∈ pairsOf pb, pr.1 ≤ pr.2)
    (hg : ∀ p : RVec, ((jac.eval p).2).length = p.length) :
    (∀ k, 1 ≤ k → k ≤ N →
      inBounds (pairsOf pb)
        ((adamIterate (mkCfg sq jac N st b1 b2 (some bs) (some pb))
          pstart k).params))
    ∧ (1 ≤ N → ∀ P T,
        adam sq jac pstart N (some bs) st b1 b2 = .ok (P, T) →
        inBounds (pairsOf pb) P) := by
  have hub : (mkCfg sq jac N st b1 b2 (some bs) (some pb)).useBounds = true := by
    cases bs with
    | nil => exact absurd rfl hbs
    | cons a l => rfl
  have hbl : (mkCfg sq jac N st b1 b2 (some bs) (some pb)).bps.length =
      pstart.length := by
    show (pairsOf pb).length = pstart.length
    simp [pairsOf, parse_bounds_some_length hpb]
  have part1 : ∀ k, 1 ≤ k → k ≤ N →
      inBounds (pairsOf pb)
        ((adamIterate (mkCfg sq jac N st b1 b2 (some bs) (some pb))
          pstart k).params) := by
    intro k hk1 _hk2
    obtain ⟨j, rfl⟩ : ∃ j, k = j + 1 :=
      ⟨k - 1, (Nat.succ_pred_eq_of_pos hk1).symm⟩
    obtain ⟨xs, hxs⟩ := adamStep_params_clamped
      (mkCfg sq jac N st b1 b2 (some bs) (some pb)) j
      (adamIterate (mkCfg sq jac N st b1 b2 (some bs) (some pb)) pstart j) hub
    constructor
    · have h1 := (adamIterate_length
        (mkCfg sq jac N st b1 b2 (some bs) (some pb)) pstart hg
        (fun _ => hbl) (j + 1)).1
      exact hbl.trans h1.symm
    · intro pr hpr
      have hx : (adamIterate (mkCfg sq jac N st b1 b2 (some bs) (some pb))
          pstart (j + 1)).params = clampL (pairsOf pb) xs := hxs
      rw [hx] at hpr
      exact clampL_zip_mem (pairsOf pb) xs hlu pr hpr
  refine ⟨part1, ?_⟩
  intro hN P T hPT
  have hrun : adam sq jac pstart N (some bs) st b1 b2 =
      .ok ((adamIterate (mkCfg sq jac N st b1 b2 (some bs) (some pb))
              pstart N).params,
           (adamIterate (mkCfg sq jac N st b1 b2 (some bs) (some pb))
              pstart N).of_list) := by
    simp [adam, adamDrive, hpb, Except.map]
  rw [hrun] at hPT
  obtain ⟨hP, hT⟩ :
      (adamIterate (mkCfg sq jac N st b1 b2 (some bs) (some pb))
        pstart N).params = P
      ∧ (adamIterate (mkCfg sq jac N st b1 b2 (some bs) (some pb))
          pstart N).of_list = T := by
    simpa using hPT
  rw [← hP]
  exact part1 N hN le_rfl

theorem adam_bounds_clamped_witness :
    (([PyVal.num 0, PyVal.num 1] : List PyVal) ≠ [])
    ∧ _parse_bounds (some [PyVal.num 0, PyVal.num 1]) ([(5 : ℚ), -5].length) =
        .ok (some (List.replicate 2 (PyVal.tup [PyVal.num 0, PyVal.num 1])))
    ∧ (∀ pr ∈ pairsOf (List.replicate 2 (PyVal.tup [PyVal.num 0, PyVal.num 1])),
        pr.1 ≤ pr.2)
    ∧ (∀ p : RVec, ((jacConst.eval p).2).length = p.length)
    ∧ (∀ k, 1 ≤ k → k ≤ 2 →
        inBounds
          (pairsOf (List.replicate 2 (PyVal.tup [PyVal.num 0, PyVal.num 1])))
          ((adamIterate (mkCfg (fun x => x) jacConst 2 1 (9 / 10) (999 / 1000)
              (some [PyVal.num 0, PyVal.num 1])
              (some (List.replicate 2 (PyVal.tup [PyVal.num 0, PyVal.num 1]))))
            [5, -5] k).params)) := by
  have hg : ∀ p : RVec, ((jacConst.eval p).2).length = p.length := by
    intro p
    simp [jacConst, Jac.eval]
  have h := adam_bounds_clamped (fun x => x) jacConst [5, -5] 2 1 (9 / 10)
    (999 / 1000) [PyVal.num 0, PyVal.num 1]
    (List.replicate 2 (PyVal.tup [PyVal.num 0, PyVal.num 1]))
    (by simp) rfl (by decide) hg
  exact ⟨by simp, rfl, by decide, hg, h.1⟩

theorem adamStep_pstartMem_noBounds (c : AdamCfg) (i : ℕ) (s : AdamState)
    (h : c.useBounds = false) :
    (adamStep c i s).pstartMem = s.pstartMem := by
  simp [adamStep, h]

theorem adamStep_unaliased (c : AdamCfg) (i : ℕ) (s : AdamState)
    (h : s.aliased = false) :
    (adamStep c i s).pstartMem = s.pstartMem
    ∧ (adamStep c i s).aliased = false := by
  constructor <;> simp [adamStep, h]

theorem adamStep_zero_unaliases (c : AdamCfg) (s : AdamState)
    (h : 0 < c.Nepochs - 1) :
    (adamStep c 0 s).pstartMem = s.pstartMem
    ∧ (adamStep c 0 s).aliased = false := by
  constructor <;> simp [adamStep, h]

theorem adamIterate_pstartMem_noBounds (c : AdamCfg) (pstart : RVec)
    (h : c.useBounds = false) (k : ℕ) :
    (adamIterate c pstart k).pstartMem = pstart := by
  induction k with
  | zero => rfl
  | succ k ih =>
    rw [show adamIterate c pstart (k + 1)
        = adamStep c k (adamIterate c pstart k) from rfl,
      adamStep_pstartMem_noBounds c k _ h, ih]

theorem adamIterate_pstartMem_many (c : AdamCfg) (pstart : RVec)
    (h2 : 2 ≤ c.Nepochs) (k : ℕ) (hk : 1 ≤ k) :
    (adamIterate c pstart k).pstartMem = pstart
    ∧ (adamIterate c pstart k).aliased = false := by
  induction k with
  | zero => omega
  | succ k ih =>
    by_cases hk0 : k = 0
    · subst hk0
      have h0 : 0 < c.Nepochs - 1 := by omega
      exact adamStep_zero_unaliases c (adamInit pstart) h0
    · have ih' := ih (by omega)
      have hstep := adamStep_unaliased c k (adamIterate c pstart k) ih'.2
      exact ⟨hstep.1.trans ih'.1, hstep.2⟩

/-- C9 (amended): the Adam update step builds a new parameter vector (and
thereby drops the aliasing of `pstart`), but the bound clamp writes the
current vector in place; consequently the caller's `pstart` buffer is left
unmodified by every run with `Nepochs ≠ 1`, and by every run without bounds —
while a bounded run with `Nepochs = 1` clamps `pstart` itself in place (see
the counterexample). -/
theorem adam_pstart_preserved (sq : ℚ → ℚ) (jac : Jac) (pstart : RVec)
    (N : ℕ) (bounds : Option (List PyVal)) (st b1 b2 : ℚ) (s : AdamState)
    (h : N ≠ 1 ∨ bounds = none)
    (hs : adamDrive sq jac pstart N bounds st b1 b2 = .ok s) :
    s.pstartMem = pstart := by
  cases hpb : _parse_bounds bounds pstart.length with
  | error e => simp [adamDrive, hpb] at hs
  | ok pb =>
    simp only [adamDrive, hpb] at hs
    obtain rfl : adamIterate (mkCfg sq jac N st b1 b2 bounds pb) pstart N = s := by
      simpa using hs
    rcases h with hN | hb
    · rcases Nat.lt_or_ge N 2 with hlt | hge
      · obtain rfl : N = 0 := by omega
        rfl
      · exact (adamIterate_pstartMem_many
          (mkCfg sq jac N st b1 b2 bounds pb) pstart hge N (by omega)).1
    · subst hb
      exact adamIterate_pstartMem_noBounds
        (mkCfg sq jac N st b1 b2 none pb) pstart rfl N

theorem adam_pstart_preserved_witness :
    (((0 : ℕ) ≠ 1) ∨ ((none : Option (List PyVal)) = none))
    ∧ (adamInit [5]).pstartMem = [5] :=
  ⟨Or.inl (by decide),
   adam_pstart_preserved (fun x => x) jacConst [5] 0 none 1 (9 / 10)
     (999 / 1000) (adamInit [5]) (Or.inl (by decide)) rfl⟩

/-- C9 counterexample: a run with `Nepochs = 1` and bounds `[0, 1]` from
`pstart = [-1]` leaves the caller's `pstart` buffer holding `[0]` — the
final-iteration clamp wrote through the still-aliased array — so `pstart` is
not preserved, refuting the claim that the caller-supplied starting vector is
never modified. -/
theorem adam_pstart_mutated_cex :
    (adamDrive (fun x => x) jacConst [-1] 1 (some [PyVal.num 0, PyVal.num 1])
        1 (9 / 10) (999 / 1000)).toOption.map AdamState.pstartMem = some [0]
    ∧ ([(0 : ℚ)] : RVec) ≠ [-1] := by
  constructor
  · decide
  · decide

/-- C6: in an L-BFGS-B run (joint `jac == True` mode) in which every callback
invocation is preceded by at least one wrapped-objective evaluation, folding
the adapter state through the solver's calls succeeds and yields exactly: the
iteration counter incremented once per callback invocation, the trace
extended by one entry per callback invocation — each equal to the scalar
stored by the most recent objective evaluation, with no re-evaluation — and
the current parameter vector set to the iterate reported by the last
callback; in particular the appended trace has length equal to the number of
callback invocations. -/
theorem lbfgs_callback_contract (f : RVec → PyScalar × RVec)
    (es : List LEvent) (s : LState)
    (hpre : cbsPreceded s.of_last.isSome es = true) :
    lbfgsRun (jointObjective f) s es =
      .ok ⟨s.iteration + countCb es,
           s.of_list ++ cbTrace (jointObjective f) es s.of_last,
           finalParams es s.params,
           finalStored (jointObjective f) es s.of_last⟩
    ∧ (cbTrace (jointObjective f) es s.of_last).length = countCb es := by
  induction es generalizing s with
  | nil =>
    simp [lbfgsRun, countCb, cbTrace, finalParams, finalStored]
  | cons e es ih =>
    cases e with
    | eval p =>
      have hw : of_wrapper (jointObjective f) p =
          .ok (_get_value (f p).1, .pair (f p).1 (f p).2) := rfl
      have hpre' :
          cbsPreceded (some (_get_value (f p).1) : Option PyScalar).isSome es
            = true := by
        simpa [cbsPreceded] using hpre
      have ihh := ih ⟨s.iteration, s.of_list, s.params,
        some (_get_value (f p).1)⟩ hpre'
      constructor
      · rw [show lbfgsRun (jointObjective f) s (.eval p :: es)
            = lbfgsRun (jointObjective f)
                ⟨s.iteration, s.of_list, s.params, some (_get_value (f p).1)⟩ es
            from by simp [lbfgsRun, lbfgsStep, hw]]
        rw [ihh.1]
        simp [countCb, List.countP_cons, cbTrace, finalParams, finalStored, hw]
      · rw [show cbTrace (jointObjective f) (.eval p :: es) s.of_last
            = cbTrace (jointObjective f) es (some (_get_value (f p).1))
            from by simp [cbTrace, hw]]
        rw [ihh.2]
        simp [countCb, List.countP_cons]
    | cbk x =>
      have hb : s.of_last.isSome = true
          ∧ cbsPreceded s.of_last.isSome es = true := by
        simpa [cbsPreceded, Bool.and_eq_true] using hpre
      obtain ⟨v, hv⟩ := Option.isSome_iff_exists.mp hb.1
      have hpre' : cbsPreceded (some v : Option PyScalar).isSome es = true := by
        have := hb.2
        rw [hv] at this
        exact this
      have ihh := ih ⟨s.iteration + 1, s.of_list ++ [v], x, some v⟩ hpre'
      constructor
      · rw [show lbfgsRun (jointObjective f) s (.cbk x :: es)
            = lbfgsRun (jointObjective f)
                ⟨s.iteration + 1, s.of_list ++ [v], x, some v⟩ es
            from by simp [lbfgsRun, lbfgsStep, hv]]
        rw [ihh.1]
        simp only [Except.ok.injEq, LState.mk.injEq]
        refine ⟨?_, ?_, ?_, ?_⟩
        · simp [countCb, List.countP_cons]
          omega
        · simp [cbTrace, hv]
        · simp [finalParams]
        · simp [finalStored, hv]
      · rw [show cbTrace (jointObjective f) (.cbk x :: es) s.of_last
            = v :: cbTrace (jointObjective f) es (some v)
            from by simp [cbTrace, hv]]
        rw [show (v :: cbTrace (jointObjective f) es (some v)).length
            = (cbTrace (jointObjective f) es (some v)).length + 1
            from rfl]
        rw [ihh.2]
        simp [countCb, List.countP_cons]

theorem lbfgs_callback_contract_witness :
    cbsPreceded (lbfgsInit [0]).of_last.isSome
      [LEvent.eval [1], LEvent.cbk [2]] = true
    ∧ lbfgsRun (jointObjective jointConst) (lbfgsInit [0])
        [LEvent.eval [1], LEvent.cbk [2]] =
      .ok ⟨(lbfgsInit [0]).iteration + countCb [LEvent.eval [1], LEvent.cbk [2]],
           (lbfgsInit [0]).of_list ++ cbTrace (jointObjective jointConst)
             [LEvent.eval [1], LEvent.cbk [2]] (lbfgsInit [0]).of_last,
           finalParams [LEvent.eval [1], LEvent.cbk [2]] (lbfgsInit [0]).params,
           finalStored (jointObjective jointConst)
             [LEvent.eval [1], LEvent.cbk [2]] (lbfgsInit [0]).of_last⟩
    ∧ (cbTrace (jointObjective jointConst) [LEvent.eval [1], LEvent.cbk [2]]
        (lbfgsInit [0]).of_last).length =
      countCb [LEvent.eval [1], LEvent.cbk [2]] := by
  have h := lbfgs_callback_contract jointConst
    [LEvent.eval [1], LEvent.cbk [2]] (lbfgsInit [0]) (by decide)
  exact ⟨by decide, h.1, h.2⟩
